import Mathlib

/-!
Verification of the population-stratification PCA pipeline.

Shallow embedding of the C sources:
* `variant_calling.c` — substitution scoring, CpG detection, context counting,
  `call_variants_chunk`, and the sparse per-individual variant sets;
* `pca.c` — sparse matrix-vector products, deflated power iteration
  (`partial_pca_sparse`, embedded as `pcaSparse`), and the final z-score
  normalization of PC scores;
* `analysis.c` — the streaming pipeline `gather_variants_sparse` (embedded as
  `gatherLoop` / `gatherVariantsSparse`) and the helper `get_file_length`.

C `double` arithmetic is idealized as exact arithmetic in a linear ordered
field; the transcendental functions `exp`/`sqrt` are the real ones where a
claim needs their analytic properties, and are otherwise abstracted as a
function parameter (`sq` for the logistic squash, `rt` for the square root,
`rv` for the unseeded `rand()` stream) so that the embedded code stays
executable over `ℚ`.  A per-individual sparse variant set is the list of
`(col, score)` pairs in insertion order; `call_variants_chunk` is embedded as
the list of entries one call appends.
-/

namespace PopPCA

/-- Scoring parameters, mirroring `VariantParams` of `variant_calling.h`. -/
structure VariantParams (α : Type) where
  transition_weight : α
  transversion_weight : α
  cpg_multiplier : α
  cluster_factor : α
  logistic_scale : α

/-- Default parameter values from the global `params` in `analysis.c`. -/
def defaultParams (α : Type) [LinearOrderedField α] : VariantParams α :=
  { transition_weight := 0.28
    transversion_weight := 1.1
    cpg_multiplier := 1.8
    cluster_factor := 0.12
    logistic_scale := 0.6 }

/-- Validity test used by `call_variants_chunk`: base is one of A, C, G, T. -/
def validBase (c : Char) : Bool :=
  c = 'A' || c = 'C' || c = 'G' || c = 'T'

/-- Embeds `_calculate_substitution_score`: transition pairs
{AG, GA, CT, TC} get `transition_weight`, all else `transversion_weight`. -/
def substitutionScore {α : Type} [LinearOrderedField α] (ref alt : Char)
    (p : VariantParams α) : α :=
  if (ref = 'A' ∧ alt = 'G') ∨ (ref = 'G' ∧ alt = 'A') ∨
     (ref = 'C' ∧ alt = 'T') ∨ (ref = 'T' ∧ alt = 'C') then
    p.transition_weight
  else
    p.transversion_weight

/-- Embeds `_is_cpg_site`: only for `0 < pos < chunk_len - 1`, the reference
has C at `pos` followed by G, or G at `pos` preceded by C. -/
def isCpgSite (refChunk : List Char) (pos chunkLen : Nat) : Bool :=
  if 0 < pos ∧ pos < chunkLen - 1 then
    (refChunk.getD pos ' ' = 'C' ∧ refChunk.getD (pos + 1) ' ' = 'G') ∨
    (refChunk.getD pos ' ' = 'G' ∧ refChunk.getD (pos - 1) ' ' = 'C')
  else
    false

/-- Window start used by `_count_context_variants` (radius 2). -/
def ctxStart (pos : Nat) : Nat := if pos > 2 then pos - 2 else 0

/-- Window end used by `_count_context_variants` (radius 2, clipped). -/
def ctxEnd (pos chunkLen : Nat) : Nat :=
  if pos + 2 < chunkLen then pos + 2 else chunkLen - 1

/-- Embeds `_count_context_variants`: number of mismatching indices in the
inclusive window `[ctxStart pos, ctxEnd pos chunkLen]`. -/
def countContextVariants (refChunk sampleChunk : List Char) (pos chunkLen : Nat) : Nat :=
  (List.range' (ctxStart pos) (ctxEnd pos chunkLen + 1 - ctxStart pos)).countP
    (fun i => refChunk.getD i ' ' != sampleChunk.getD i ' ')

/-- CpG adjustment step of `call_variants_chunk` (lines 110-112). -/
def cpgAdjusted {α : Type} [LinearOrderedField α] (refChunk : List Char)
    (pos chunkLen : Nat) (base : α) (p : VariantParams α) : α :=
  if isCpgSite refChunk pos chunkLen then base * p.cpg_multiplier else base

/-- Pre-squash score of `call_variants_chunk` at index `i` (lines 108-114):
substitution weight, CpG multiplier, then cluster multiplier
`1 + cluster_factor * ctx_vars`. -/
def chunkScore {α : Type} [LinearOrderedField α] (refChunk sampleChunk : List Char)
    (i chunkLen : Nat) (p : VariantParams α) : α :=
  cpgAdjusted refChunk i chunkLen
      (substitutionScore (refChunk.getD i ' ') (sampleChunk.getD i ' ') p) p *
    (1 + p.cluster_factor * (countContextVariants refChunk sampleChunk i chunkLen : α))

/-- Embeds `call_variants_chunk`: for each index `i < chunk_len` it skips
matches and invalid bases, computes the logistic-squashed score
`sq (logistic_scale * score)` (`sq` abstracts `x ↦ 1/(1+exp(-x))` over
doubles), and appends `(global_offset + i, score)` when the score is
positive.  The returned list is the sequence of entries appended to the
individual's `IndividualVariants` by this call. -/
def callVariantsChunk {α : Type} [LinearOrderedField α] (sq : α → α)
    (refChunk sampleChunk : List Char) (chunkLen globalOffset : Nat)
    (p : VariantParams α) : List (Nat × α) :=
  (List.range chunkLen).filterMap (fun i =>
    if refChunk.getD i ' ' = sampleChunk.getD i ' ' then none
    else if ¬ validBase (refChunk.getD i ' ') then none
    else if ¬ validBase (sampleChunk.getD i ' ') then none
    else if 0 < sq (p.logistic_scale * chunkScore refChunk sampleChunk i chunkLen p) then
      some (globalOffset + i, sq (p.logistic_scale * chunkScore refChunk sampleChunk i chunkLen p))
    else none)

/-- Logistic squashing function used by `call_variants_chunk`
(line 117 of `variant_calling.c`), over the reals. -/
noncomputable def sigmoid (x : ℝ) : ℝ := 1 / (1 + Real.exp (-x))

/-- Embeds the per-row accumulation of `multiply_X_vec`:
`y[i] = Σ score * v[col]` over row `i`'s entries, in entry order. -/
def rowDot {α : Type} [LinearOrderedField α] (entries : List (Nat × α)) (v : List α) : α :=
  entries.foldl (fun acc e => acc + e.2 * v.getD e.1 0) 0

/-- Embeds `multiply_X_vec` of `pca.c`: `y = X * v` for the implicit sparse
matrix whose rows are the individuals' variant lists. -/
def multiplyXVec {α : Type} [LinearOrderedField α] (ivars : List (List (Nat × α)))
    (v : List α) : List α :=
  ivars.map (fun indv => rowDot indv v)

/-- One scatter-accumulate `z[c] += x` of `multiply_Xt_vec`. -/
def scatterAdd {α : Type} [LinearOrderedField α] (z : List α) (c : Nat) (x : α) : List α :=
  z.set c (z.getD c 0 + x)

/-- Embeds `multiply_Xt_vec` of `pca.c`: `z = Xᵀ * y`, starting from a zero
vector of length `d` and accumulating `z[col] += score * y[i]` row by row. -/
def multiplyXtVec {α : Type} [LinearOrderedField α] (ivars : List (List (Nat × α)))
    (d : Nat) (y : List α) : List α :=
  (ivars.zip y).foldl
    (fun z iy => iy.1.foldl (fun z e => scatterAdd z e.1 (e.2 * iy.2)) z)
    (List.replicate d 0)

/-- Dot product of two dense vectors, accumulated left to right exactly as the
inline loops of `pca.c` (`remove_component`, the §8 adjoint test). -/
def dotVec {α : Type} [LinearOrderedField α] (a b : List α) : α :=
  (a.zip b).foldl (fun acc q => acc + q.1 * q.2) 0

/-- Sum of squares of a dense vector (the `norm`/`sum_sq` accumulations of
`pca.c`). -/
def sumSq {α : Type} [LinearOrderedField α] (v : List α) : α :=
  (v.map (fun x => x * x)).sum

/-- Embeds `remove_component` of `pca.c`: `vec ← vec - dot(vec, pc) * pc`. -/
def removeComponent {α : Type} [LinearOrderedField α] (vec pc : List α) : List α :=
  List.zipWith (fun a b => a - dotVec vec pc * b) vec pc

/-- Normalization step of `partial_pca_sparse`: divide by
`rt (Σ v[c]²)` (`rt` abstracts `sqrt` over doubles), with norms below `1e-15`
replaced by `1`. -/
def normalizeVec {α : Type} [LinearOrderedField α] (rt : α → α) (vec : List α) : List α :=
  vec.map (fun x => x / (if rt (sumSq vec) < 1 / 10 ^ 15 then 1 else rt (sumSq vec)))

/-- One power iteration of `partial_pca_sparse` (lines 213-235):
`y = X v`, `z = Xᵀ y`, deflate `z` against the previous components,
normalize. -/
def powerIterStep {α : Type} [LinearOrderedField α] (rt : α → α)
    (ivars : List (List (Nat × α))) (d : Nat) (prevs : List (List α))
    (v : List α) : List α :=
  normalizeVec rt
    (prevs.foldl (fun z pc => removeComponent z pc)
      (multiplyXtVec ivars d (multiplyXVec ivars v)))

/-- Computation of one principal component in `partial_pca_sparse`:
random initialization (`rv comp` abstracts the `rand()/RAND_MAX - 0.5`
stream), deflation, normalization, then exactly 20 power iterations. -/
def computeComponent {α : Type} [LinearOrderedField α] (rt : α → α)
    (rv : Nat → Nat → α) (ivars : List (List (Nat × α))) (d comp : Nat)
    (prevs : List (List α)) : List α :=
  (List.range 20).foldl (fun v _ => powerIterStep rt ivars d prevs v)
    (normalizeVec rt
      (prevs.foldl (fun v pc => removeComponent v pc) ((List.range d).map (rv comp))))

/-- Z-score normalization of one scores column, embedding
`z_score_pca_scores` of `pca.c` for one `comp_i` with `n = n_inds`:
subtract the mean, compute `variance = (n > 1) ? sum_sq/(n-1) : 0`,
`stddev = (variance > 0) ? rt variance : 1`, divide by `stddev`. -/
def zScoreColumnG {α : Type} [LinearOrderedField α] (rt : α → α) (n : Nat)
    (col : List α) : List α :=
  let mean := col.sum / (n : α)
  let centered := col.map (fun x => x - mean)
  let sumsq := (centered.map (fun x => x * x)).sum
  let variance := if 1 < n then sumsq / ((n : α) - 1) else 0
  let stddev := if 0 < variance then rt variance else 1
  centered.map (fun x => x / stddev)

/-- Raw sample variance of a column exactly as `z_score_pca_scores` computes
it: centered sum of squares over `n - 1` (and `0` when `n ≤ 1`). -/
def colVariance {α : Type} [LinearOrderedField α] (n : Nat) (col : List α) : α :=
  if 1 < n then
    ((col.map (fun x => x - col.sum / (n : α))).map (fun x => x * x)).sum / ((n : α) - 1)
  else 0

/-- Result record of `partial_pca_sparse` (`PartialPCA_Result` in `pca.h`).
`scores` is kept column-major: one list per component, each of length
`n_inds`, matching the per-column processing of the C code. -/
structure PCAResult (α : Type) where
  num_components : Nat
  eigenvalues : List α
  pc_vectors : List (List α)
  scores : List (List α)

/-- Divisor of the eigenvalue estimate in `partial_pca_sparse`
(line 246 of `pca.c`): `(double)(n_inds - 1)`, with no guard. -/
def eigenvalueDivisor (α : Type) [LinearOrderedField α] (n : Nat) : α :=
  (n : α) - 1

/-- Embeds the computation of `partial_pca_sparse` of `pca.c` (named without
the C prefix): what the C function computes once its six `secure_alloc`
calls all succeeded.  For each component index the power method runs on the
deflated data, the vector is stored, the eigenvalue estimate is
`‖X v‖² / (n_inds - 1)`, the scores column is `X v`, and finally every
scores column is z-scored.  `rt` abstracts `sqrt`, `rv` the unseeded
`rand()` stream.  No validation of `top_k` against `d` is performed
anywhere; the fatal zero-size allocation check preceding this computation is
modeled by `pcaSparseRun`. -/
def pcaSparse {α : Type} [LinearOrderedField α] (rt : α → α) (rv : Nat → Nat → α)
    (ivars : List (List (Nat × α))) (n_inds d top_k : Nat) : PCAResult α :=
  let pcs := (List.range top_k).foldl
    (fun pcs comp => pcs ++ [computeComponent rt rv ivars d comp pcs]) []
  { num_components := top_k
    eigenvalues := pcs.map (fun v => sumSq (multiplyXVec ivars v) / eigenvalueDivisor α n_inds)
    pc_vectors := pcs
    scores := (pcs.map (fun pc => multiplyXVec ivars pc)).map (zScoreColumnG rt n_inds) }

/-- Embeds `secure_alloc` of `utils.c` as seen by its callers: a request of
zero bytes terminates the process (`none`); a positive-size request
succeeds (`some ()`; out-of-memory termination is not modeled).  The byte
size is `count * sizeof(double)` with `sizeof(double) > 0`, so the request
is zero-size exactly when the element count is zero. -/
def secureAlloc (count : Nat) : Option Unit :=
  if count = 0 then none else some ()

/-- Embeds the full entry point `partial_pca_sparse` including its
allocations (lines 178-184 of `pca.c`): before any power iteration it
allocates `eigenvalues` (`top_k` doubles), `pc_vectors` (`top_k * d`),
`scores` (`n_inds * top_k`), and the work vectors `v` (`d`), `z` (`d`),
`y` (`n_inds`), in this order; `secure_alloc` terminates the process on the
first zero-size request (`none`).  When every allocation succeeds the
result is the pure computation `pcaSparse`. -/
def pcaSparseRun {α : Type} [LinearOrderedField α] (rt : α → α) (rv : Nat → Nat → α)
    (ivars : List (List (Nat × α))) (n_inds d top_k : Nat) : Option (PCAResult α) :=
  (secureAlloc top_k).bind fun _ =>
  (secureAlloc (top_k * d)).bind fun _ =>
  (secureAlloc (n_inds * top_k)).bind fun _ =>
  (secureAlloc d).bind fun _ =>
  (secureAlloc d).bind fun _ =>
  (secureAlloc n_inds).bind fun _ =>
  some (pcaSparse rt rv ivars n_inds d top_k)

/-- Embeds `get_file_length` of `analysis.c`: file size in bytes, minus one
when the last byte is a newline. -/
def getFileLength (file : List Char) : Nat :=
  if 0 < file.length ∧ file.getLast? = some '\n' then file.length - 1 else file.length

/-- Initial contents of a chunk buffer: `secure_alloc` zero-fills
(`calloc`), so a fresh buffer holds `chunk_size` NUL bytes. -/
def initialBuf (chunkSize : Nat) : List Char :=
  List.replicate chunkSize (Char.ofNat 0)

/-- Embeds the read loop of `gather_variants_sparse` in `analysis.c` for one
individual.  Each iteration reads `nref = min chunk_size remaining` bytes of
the reference, reads `nind = min nref remaining_ind` bytes into the
individual's persistent buffer (the suffix keeps its previous, stale
contents), calls the variant scorer with length `nref`, and advances the
global offset by `nref`.  Returns the accumulated entries and `total_len`
(the final offset). -/
def gatherLoop {α : Type} [LinearOrderedField α] (sq : α → α) (p : VariantParams α)
    (chunkSize : Nat) (refFile indFile : List Char) (refPos indPos offset : Nat)
    (buf : List Char) (acc : List (Nat × α)) : List (Nat × α) × Nat :=
  if _h : min chunkSize (refFile.length - refPos) = 0 then (acc, offset)
  else
    let nref := min chunkSize (refFile.length - refPos)
    let refChunk := (refFile.drop refPos).take nref
    let nind := min nref (indFile.length - indPos)
    let bufNext := (indFile.drop indPos).take nind ++ buf.drop nind
    let acc2 := acc ++ callVariantsChunk sq refChunk bufNext nref offset p
    if nref < chunkSize then (acc2, offset + nref)
    else gatherLoop sq p chunkSize refFile indFile (refPos + nref) (indPos + nind)
      (offset + nref) bufNext acc2
termination_by refFile.length - refPos
decreasing_by omega

/-- Streaming pipeline of `gather_variants_sparse`, projected to one
individual: starts at offset 0 with a zero-filled buffer and an empty sparse
set. -/
def gatherVariantsSparse {α : Type} [LinearOrderedField α] (sq : α → α)
    (p : VariantParams α) (chunkSize : Nat) (refFile indFile : List Char) :
    List (Nat × α) × Nat :=
  gatherLoop sq p chunkSize refFile indFile 0 0 0 (initialBuf chunkSize) []

/-! ### General lemmas about the embedded operations -/

theorem sigmoid_pos (x : ℝ) : 0 < sigmoid x := by
  unfold sigmoid
  positivity

theorem half_lt_sigmoid {x : ℝ} (hx : 0 < x) : 1 / 2 < sigmoid x := by
  unfold sigmoid
  have h1 : Real.exp (-x) < 1 := Real.exp_lt_one_iff.mpr (by linarith)
  have h2 : 0 < 1 + Real.exp (-x) := by positivity
  rw [div_lt_div_iff₀ (by norm_num) h2]
  linarith

theorem sigmoid_strictMono : StrictMono sigmoid := by
  intro a b hab
  unfold sigmoid
  have h1 : Real.exp (-b) < Real.exp (-a) := Real.exp_lt_exp.mpr (by linarith)
  have h2 : 0 < 1 + Real.exp (-b) := by positivity
  have h3 : 0 < 1 + Real.exp (-a) := by positivity
  rw [div_lt_div_iff₀ h3 h2]
  linarith

theorem foldl_add_map {α β : Type} [LinearOrderedField α] (l : List β) (f : β → α) (a : α) :
    l.foldl (fun acc x => acc + f x) a = a + (l.map f).sum := by
  induction l generalizing a with
  | nil => simp
  | cons hd tl ih => simp [ih, add_assoc]

theorem rowDot_eq_sum {α : Type} [LinearOrderedField α] (entries : List (Nat × α))
    (v : List α) : rowDot entries v = (entries.map (fun e => e.2 * v.getD e.1 0)).sum := by
  simpa [rowDot] using foldl_add_map entries (fun e => e.2 * v.getD e.1 0) 0

theorem dotVec_eq_sum {α : Type} [LinearOrderedField α] (a b : List α) :
    dotVec a b = ((a.zip b).map (fun q => q.1 * q.2)).sum := by
  simpa [dotVec] using foldl_add_map (a.zip b) (fun q => q.1 * q.2) 0

theorem dotVec_cons {α : Type} [LinearOrderedField α] (x y : α) (a b : List α) :
    dotVec (x :: a) (y :: b) = x * y + dotVec a b := by
  simp [dotVec_eq_sum]

theorem dotVec_replicate_zero {α : Type} [LinearOrderedField α] (v : List α) (d : Nat) :
    dotVec v (List.replicate d 0) = 0 := by
  induction v generalizing d with
  | nil => simp [dotVec_eq_sum]
  | cons x v ih =>
    cases d with
    | zero => simp [dotVec_eq_sum]
    | succ d => simp [List.replicate_succ, dotVec_cons, ih]

theorem length_scatterAdd {α : Type} [LinearOrderedField α] (z : List α) (c : Nat) (x : α) :
    (scatterAdd z c x).length = z.length := by
  simp [scatterAdd]

theorem dotVec_scatterAdd {α : Type} [LinearOrderedField α] :
    ∀ (c : Nat) (v z : List α) (x : α), c < z.length → v.length = z.length →
      dotVec v (scatterAdd z c x) = dotVec v z + v.getD c 0 * x := by
  intro c
  induction c with
  | zero =>
    intro v z x hc hlen
    cases z with
    | nil => simp at hc
    | cons b z =>
      cases v with
      | nil => simp at hlen
      | cons a v =>
        simp only [scatterAdd, List.getD_cons_zero, List.set_cons_zero, dotVec_cons]
        ring
  | succ c ih =>
    intro v z x hc hlen
    cases z with
    | nil => simp at hc
    | cons b z =>
      cases v with
      | nil => simp at hlen
      | cons a v =>
        have h1 : scatterAdd (b :: z) (c + 1) x = b :: scatterAdd z c x := by
          simp [scatterAdd]
        rw [h1, dotVec_cons, dotVec_cons,
          ih v z x (by simpa using hc) (by simpa using hlen)]
        simp [add_assoc]

theorem length_foldl_scatter {α : Type} [LinearOrderedField α] (entries : List (Nat × α))
    (z : List α) (yi : α) :
    (entries.foldl (fun z e => scatterAdd z e.1 (e.2 * yi)) z).length = z.length := by
  induction entries generalizing z with
  | nil => rfl
  | cons e es ih => simp [ih, length_scatterAdd]

theorem dotVec_row_fold {α : Type} [LinearOrderedField α] (entries : List (Nat × α))
    (z v : List α) (yi : α) (hb : ∀ e ∈ entries, e.1 < z.length)
    (hlen : v.length = z.length) :
    dotVec v (entries.foldl (fun z e => scatterAdd z e.1 (e.2 * yi)) z)
      = dotVec v z + (entries.map (fun e => e.2 * v.getD e.1 0)).sum * yi := by
  induction entries generalizing z with
  | nil => simp
  | cons e es ih =>
    have hlen2 : (scatterAdd z e.1 (e.2 * yi)).length = z.length := length_scatterAdd ..
    rw [List.foldl_cons,
      ih (scatterAdd z e.1 (e.2 * yi))
        (fun e' he' => hlen2 ▸ hb e' (List.mem_cons_of_mem _ he'))
        (hlen.trans hlen2.symm),
      dotVec_scatterAdd e.1 v z (e.2 * yi) (hb e (List.mem_cons_self ..)) hlen]
    simp
    ring

theorem dotVec_Xt_fold {α : Type} [LinearOrderedField α]
    (l : List (List (Nat × α) × α)) (z v : List α)
    (hb : ∀ pr ∈ l, ∀ e ∈ pr.1, e.1 < z.length) (hlen : v.length = z.length) :
    dotVec v (l.foldl (fun z pr => pr.1.foldl (fun z e => scatterAdd z e.1 (e.2 * pr.2)) z) z)
      = dotVec v z
        + (l.map (fun pr => (pr.1.map (fun e => e.2 * v.getD e.1 0)).sum * pr.2)).sum := by
  induction l generalizing z with
  | nil => simp
  | cons pr l ih =>
    have hlen2 : (pr.1.foldl (fun z e => scatterAdd z e.1 (e.2 * pr.2)) z).length = z.length :=
      length_foldl_scatter ..
    rw [List.foldl_cons,
      ih (pr.1.foldl (fun z e => scatterAdd z e.1 (e.2 * pr.2)) z)
        (fun pr' hpr' e' he' => hlen2 ▸ hb pr' (List.mem_cons_of_mem _ hpr') e' he')
        (hlen.trans hlen2.symm),
      dotVec_row_fold pr.1 z v pr.2 (hb pr (List.mem_cons_self ..)) hlen]
    simp [add_assoc]

/-- C4: `multiply_X_vec` and `multiply_Xt_vec` are exact adjoints: for every
sparse matrix (any list of individual variant lists), every `v` of length `d`
and every `y` of length `n`, `⟨X v, y⟩ = ⟨v, Xᵀ y⟩` over exact arithmetic. -/
theorem multiply_adjoint {α : Type} [LinearOrderedField α]
    (ivars : List (List (Nat × α))) (v y : List α) (d : Nat)
    (hy : y.length = ivars.length) (hv : v.length = d)
    (hb : ∀ row ∈ ivars, ∀ e ∈ row, e.1 < d) :
    dotVec (multiplyXVec ivars v) y = dotVec v (multiplyXtVec ivars d y) := by
  have hz : ∀ pr ∈ ivars.zip y, ∀ e ∈ pr.1, e.1 < (List.replicate d (0 : α)).length := by
    intro pr hpr e he
    rw [List.length_replicate]
    exact hb pr.1 (List.of_mem_zip hpr).1 e he
  rw [multiplyXtVec, dotVec_Xt_fold (ivars.zip y) (List.replicate d 0) v hz
      (by simpa using hv), dotVec_replicate_zero, zero_add]
  rw [multiplyXVec, dotVec_eq_sum, List.zip_map_left, List.map_map]
  congr 1
  apply List.map_congr_left
  intro pr _
  simp [Function.comp, rowDot_eq_sum]

/-- Witness for C4 at a concrete sparse matrix, `d = 2`, `n = 2`. -/
theorem multiply_adjoint_witness :
    ([13, 17] : List ℚ).length = [[(0, (2 : ℚ)), (1, 3)], [(1, 5)]].length ∧
    ([7, 11] : List ℚ).length = 2 ∧
    (∀ row ∈ [[(0, (2 : ℚ)), (1, 3)], [(1, 5)]], ∀ e ∈ row, e.1 < 2) ∧
    dotVec (multiplyXVec [[(0, (2 : ℚ)), (1, 3)], [(1, 5)]] [7, 11]) [13, 17]
      = dotVec [7, 11] (multiplyXtVec [[(0, (2 : ℚ)), (1, 3)], [(1, 5)]] 2 [13, 17]) :=
  ⟨rfl, rfl, by decide,
    multiply_adjoint [[(0, (2 : ℚ)), (1, 3)], [(1, 5)]] [7, 11] [13, 17] 2 rfl rfl (by decide)⟩

theorem sum_map_sub {α : Type} [LinearOrderedField α] (l : List α) (m : α) :
    (l.map (fun x => x - m)).sum = l.sum - l.length * m := by
  induction l with
  | nil => simp
  | cons x l ih => simp [ih]; ring

theorem sum_map_div {α : Type} [LinearOrderedField α] (l : List α) (s : α) :
    (l.map (fun x => x / s)).sum = l.sum / s := by
  induction l with
  | nil => simp
  | cons x l ih => simp [ih, add_div]

theorem sum_sq_map_div {α : Type} [LinearOrderedField α] (l : List α) (s : α) :
    ((l.map (fun x => x / s)).map (fun x => x * x)).sum
      = (l.map (fun x => x * x)).sum / (s * s) := by
  induction l with
  | nil => simp
  | cons x l ih =>
    simp only [List.map_cons, List.sum_cons]
    rw [ih, div_mul_div_comm, add_div]

theorem sum_sq_nonneg {α : Type} [LinearOrderedField α] (l : List α) :
    0 ≤ (l.map (fun x => x * x)).sum := by
  induction l with
  | nil => simp
  | cons x l ih => simpa using add_nonneg (mul_self_nonneg x) ih

theorem sum_sq_eq_zero {α : Type} [LinearOrderedField α] (l : List α)
    (h : (l.map (fun x => x * x)).sum = 0) : ∀ x ∈ l, x = 0 := by
  induction l with
  | nil => simp
  | cons x l ih =>
    simp only [List.map_cons, List.sum_cons] at h
    have h1 : 0 ≤ (l.map (fun x => x * x)).sum := sum_sq_nonneg l
    have h2 : 0 ≤ x * x := mul_self_nonneg x
    have hx : x * x = 0 := by linarith
    have hrest : (l.map (fun x => x * x)).sum = 0 := by linarith
    intro y hy
    rcases List.mem_cons.mp hy with rfl | hy
    · exact mul_self_eq_zero.mp hx
    · exact ih hrest y hy

/-- C5: after z-score normalization of a column of length `n ≥ 2`, the sum
(hence the sample mean) is `0`; when the raw sample variance is nonzero the
sample variance of the result is `1` (hence sample standard deviation `1`);
when the raw variance is zero the column is divided by `1` and every entry of
the result is exactly `0`. -/
theorem z_score_column_normalizes (n : Nat) (col : List ℝ) (hn : 2 ≤ n)
    (hlen : col.length = n) :
    (zScoreColumnG Real.sqrt n col).sum = 0 ∧
    (colVariance n col ≠ 0 →
      ((zScoreColumnG Real.sqrt n col).map (fun x => x * x)).sum / ((n : ℝ) - 1) = 1 ∧
      Real.sqrt (((zScoreColumnG Real.sqrt n col).map (fun x => x * x)).sum / ((n : ℝ) - 1))
        = 1) ∧
    (colVariance n col = 0 →
      zScoreColumnG Real.sqrt n col = col.map (fun x => x - col.sum / (n : ℝ)) ∧
      ∀ x ∈ zScoreColumnG Real.sqrt n col, x = 0) := by
  have hn0 : (n : ℝ) ≠ 0 := by positivity
  have hn1 : (n : ℝ) - 1 ≠ 0 := by
    have : (2 : ℝ) ≤ (n : ℝ) := by exact_mod_cast hn
    intro h; linarith
  have hn1' : 0 < (n : ℝ) - 1 := by
    have : (2 : ℝ) ≤ (n : ℝ) := by exact_mod_cast hn
    linarith
  have hlt : 1 < n := hn
  set m : ℝ := col.sum / (n : ℝ) with hm
  set centered : List ℝ := col.map (fun x => x - m) with hcent
  have hcsum : centered.sum = 0 := by
    rw [hcent, sum_map_sub, hlen, hm]
    field_simp
  set S : ℝ := (centered.map (fun x => x * x)).sum with hS
  have hSnn : 0 ≤ S := sum_sq_nonneg centered
  have hvar : colVariance n col = S / ((n : ℝ) - 1) := by
    rw [colVariance, if_pos hlt]
  have hzdef : zScoreColumnG Real.sqrt n col
      = centered.map (fun x => x / (if 0 < S / ((n : ℝ) - 1) then
          Real.sqrt (S / ((n : ℝ) - 1)) else 1)) := by
    rw [zScoreColumnG]
    simp only [if_pos hlt]
  refine ⟨?_, ?_, ?_⟩
  · rw [hzdef, sum_map_div, hcsum, zero_div]
  · intro hne
    rw [hvar] at hne
    have hSne : S ≠ 0 := fun h => hne (by rw [h, zero_div])
    have hSpos : 0 < S := lt_of_le_of_ne hSnn (Ne.symm hSne)
    have hvpos : 0 < S / ((n : ℝ) - 1) := div_pos hSpos hn1'
    have hout : ((zScoreColumnG Real.sqrt n col).map (fun x => x * x)).sum
        / ((n : ℝ) - 1) = 1 := by
      rw [hzdef, if_pos hvpos, sum_sq_map_div,
        Real.mul_self_sqrt (le_of_lt hvpos), ← hS]
      field_simp
    exact ⟨hout, by rw [hout, Real.sqrt_one]⟩
  · intro hzero
    rw [hvar, div_eq_zero_iff] at hzero
    have hSz : S = 0 := hzero.resolve_right hn1
    have hallz : ∀ x ∈ centered, x = 0 :=
      sum_sq_eq_zero centered (by rw [← hS]; exact hSz)
    have hnotpos : ¬ 0 < S / ((n : ℝ) - 1) := by
      rw [hSz, zero_div]; exact lt_irrefl 0
    constructor
    · rw [hzdef, if_neg hnotpos]
      simp [hcent]
    · intro x hx
      rw [hzdef, if_neg hnotpos] at hx
      simp only [List.mem_map] at hx
      obtain ⟨y, hy, rfl⟩ := hx
      rw [hallz y hy]
      simp

/-- Witness for C5 at the constant column `[5, 5]` with `n = 2`. -/
theorem z_score_column_normalizes_witness :
    (zScoreColumnG Real.sqrt 2 [(5 : ℝ), 5]).sum = 0 ∧
    (colVariance 2 [(5 : ℝ), 5] ≠ 0 →
      ((zScoreColumnG Real.sqrt 2 [(5 : ℝ), 5]).map (fun x => x * x)).sum
        / (((2 : Nat) : ℝ) - 1) = 1 ∧
      Real.sqrt (((zScoreColumnG Real.sqrt 2 [(5 : ℝ), 5]).map (fun x => x * x)).sum
        / (((2 : Nat) : ℝ) - 1)) = 1) ∧
    (colVariance 2 [(5 : ℝ), 5] = 0 →
      zScoreColumnG Real.sqrt 2 [(5 : ℝ), 5]
        = [(5 : ℝ), 5].map (fun x => x - [(5 : ℝ), 5].sum / ((2 : Nat) : ℝ)) ∧
      ∀ x ∈ zScoreColumnG Real.sqrt 2 [(5 : ℝ), 5], x = 0) :=
  z_score_column_normalizes 2 [(5 : ℝ), 5] (by norm_num) rfl

theorem foldl_const_fix {β γ : Type} (f : β → β) (v : β) (h : f v = v) (l : List γ) :
    l.foldl (fun v _ => f v) v = v := by
  induction l with
  | nil => rfl
  | cons c l ih => rw [List.foldl_cons, h]; exact ih

theorem length_foldl_append {β γ : Type} (l : List γ) (g : List β → γ → β) (init : List β) :
    (l.foldl (fun acc x => acc ++ [g acc x]) init).length = init.length + l.length := by
  induction l generalizing init with
  | nil => simp
  | cons c l ih =>
    rw [List.foldl_cons, ih]
    simp
    omega

/-- C3 (amended): the precondition `1 ≤ top_k ≤ d` is not enforced at the
API boundary of `partial_pca_sparse`.  A call with `top_k = 0` does
terminate the process before any power iteration — but through
`secure_alloc`'s fatal zero-size check on the `eigenvalues` allocation, not
through a precondition check — while a call with any `top_k ≥ 1`, including
`top_k > d`, passes every allocation and is silently computed, returning a
full result with `num_components = top_k` and `top_k` eigenvalues. -/
theorem pca_alloc_abort_not_precondition {α : Type} [LinearOrderedField α]
    (rt : α → α) (rv : Nat → Nat → α) (ivars : List (List (Nat × α)))
    (n_inds d top_k : Nat) (hn : 1 ≤ n_inds) (hd : 1 ≤ d) (hk : 1 ≤ top_k) :
    pcaSparseRun rt rv ivars n_inds d 0 = none ∧
    pcaSparseRun rt rv ivars n_inds d top_k
      = some (pcaSparse rt rv ivars n_inds d top_k) ∧
    (pcaSparse rt rv ivars n_inds d top_k).num_components = top_k ∧
    (pcaSparse rt rv ivars n_inds d top_k).eigenvalues.length = top_k := by
  have h1 : ¬ top_k = 0 := by omega
  have h2 : ¬ top_k * d = 0 := by
    rw [Nat.mul_eq_zero]
    omega
  have h3 : ¬ n_inds * top_k = 0 := by
    rw [Nat.mul_eq_zero]
    omega
  have h4 : ¬ d = 0 := by omega
  have h5 : ¬ n_inds = 0 := by omega
  have hlen : ((List.range top_k).foldl
      (fun pcs comp => pcs ++ [computeComponent rt rv ivars d comp pcs]) []).length
        = top_k := by
    rw [length_foldl_append]
    simp
  refine ⟨rfl, ?_, rfl, ?_⟩
  · simp [pcaSparseRun, secureAlloc, h1, h2, h3, h4, h5]
  · simp [pcaSparse, hlen]

/-- C3 (counterexample): a call with `top_k = 2 > d = 1` is not rejected
before iteration begins: every allocation is positive-size, the computation
runs to completion and returns a full two-component result, so the
precondition `top_k ≤ d` is not enforced at the API boundary. -/
theorem pca_topk_gt_d_not_rejected :
    pcaSparseRun (α := ℚ) id (fun _ _ => 1) [[(0, 1)]] 1 1 2
      = some (pcaSparse id (fun _ _ => 1) [[(0, 1)]] 1 1 2) ∧
    (pcaSparse (α := ℚ) id (fun _ _ => 1) [[(0, 1)]] 1 1 2).num_components = 2 ∧
    (pcaSparse (α := ℚ) id (fun _ _ => 1) [[(0, 1)]] 1 1 2).eigenvalues.length = 2 :=
  ⟨rfl, rfl, by decide⟩

/-- Witness for C3 (amended) at `n_inds = 1`, `d = 1`, `top_k = 2`. -/
theorem pca_alloc_abort_not_precondition_witness :
    pcaSparseRun (α := ℚ) id (fun _ _ => 1) [[(0, 1)]] 1 1 0 = none ∧
    pcaSparseRun (α := ℚ) id (fun _ _ => 1) [[(0, 1)]] 1 1 2
      = some (pcaSparse id (fun _ _ => 1) [[(0, 1)]] 1 1 2) ∧
    (pcaSparse (α := ℚ) id (fun _ _ => 1) [[(0, 1)]] 1 1 2).num_components = 2 ∧
    (pcaSparse (α := ℚ) id (fun _ _ => 1) [[(0, 1)]] 1 1 2).eigenvalues.length = 2 :=
  pca_alloc_abort_not_precondition id (fun _ _ => 1) [[(0, 1)]] 1 1 2
    (by norm_num) (by norm_num) (by norm_num)

theorem normalizeVec_one : normalizeVec (id : ℚ → ℚ) [1] = [1] := by
  norm_num [normalizeVec, sumSq]

theorem powerIterStep_one : powerIterStep (id : ℚ → ℚ) [[(0, 1)]] 1 [] [1] = [1] := by
  norm_num [powerIterStep, multiplyXVec, multiplyXtVec, rowDot, scatterAdd, normalizeVec,
    sumSq]

theorem computeComponent_one :
    computeComponent (id : ℚ → ℚ) (fun _ _ => 1) [[(0, 1)]] 1 0 [] = [1] := by
  rw [computeComponent]
  have h0 : normalizeVec (id : ℚ → ℚ)
      (([] : List (List ℚ)).foldl (fun v pc => removeComponent v pc)
        ((List.range 1).map ((fun _ _ => (1 : ℚ)) 0))) = [1] := by
    simpa [List.range_succ] using normalizeVec_one
  rw [h0]
  exact foldl_const_fix _ _ powerIterStep_one _

/-- C10: the eigenvalue estimate of `partial_pca_sparse` divides by
`(n_inds - 1)` with no guard: the divisor is nonzero for every `n_inds ≥ 2`,
it is zero for `n_inds = 1`, and a call with one individual indeed computes
its eigenvalue as a division by that zero divisor. -/
theorem eigenvalue_divisor_guard (n : Nat) (hn : 2 ≤ n) :
    eigenvalueDivisor ℚ n ≠ 0 ∧
    eigenvalueDivisor ℚ 1 = 0 ∧
    (pcaSparse (α := ℚ) id (fun _ _ => 1) [[(0, 1)]] 1 1 1).eigenvalues
      = [sumSq (multiplyXVec [[(0, (1 : ℚ))]] [1]) / eigenvalueDivisor ℚ 1] := by
  refine ⟨?_, by norm_num [eigenvalueDivisor], ?_⟩
  · rw [eigenvalueDivisor]
    have h2 : (2 : ℚ) ≤ (n : ℚ) := by exact_mod_cast hn
    intro h
    linarith
  · rw [pcaSparse]
    simp only [List.range_succ, List.range_zero, List.foldl_nil, List.foldl_cons,
      List.foldl_append, List.nil_append, computeComponent_one, List.map_cons,
      List.map_nil]

/-- Witness for C10 at `n = 2`. -/
theorem eigenvalue_divisor_guard_witness :
    eigenvalueDivisor ℚ 2 ≠ 0 ∧
    eigenvalueDivisor ℚ 1 = 0 ∧
    (pcaSparse (α := ℚ) id (fun _ _ => 1) [[(0, 1)]] 1 1 1).eigenvalues
      = [sumSq (multiplyXVec [[(0, (1 : ℚ))]] [1]) / eigenvalueDivisor ℚ 1] :=
  eigenvalue_divisor_guard 2 (by norm_num)

theorem callVariantsChunk_mem {α : Type} [LinearOrderedField α] (sq : α → α)
    (ref sam : List Char) (len off : Nat) (p : VariantParams α) (e : Nat × α)
    (he : e ∈ callVariantsChunk sq ref sam len off p) :
    ∃ i < len, e = (off + i, sq (p.logistic_scale * chunkScore ref sam i len p)) ∧
      ref.getD i ' ' ≠ sam.getD i ' ' ∧
      0 < sq (p.logistic_scale * chunkScore ref sam i len p) := by
  simp only [callVariantsChunk, List.mem_filterMap, List.mem_range] at he
  obtain ⟨i, hi, hfi⟩ := he
  split_ifs at hfi with h1 h2 h3 h4
  all_goals simp only [Option.some.injEq, reduceCtorEq] at hfi
  exact ⟨i, hi, hfi.symm, h1, h4⟩

theorem callVariantsChunk_identical {α : Type} [LinearOrderedField α] (sq : α → α)
    (ref : List Char) (len off : Nat) (p : VariantParams α) :
    callVariantsChunk sq ref ref len off p = [] := by
  simp [callVariantsChunk]

/-- Helper evaluation: the chunk of C2 (reference `ACGTACGTACGT`, sample with
index 2 changed to `T`) yields exactly one entry, at position 2, scored as a
transversion at a CpG site with one context mismatch. -/
theorem callVariants_acgt_eval :
    callVariantsChunk sigmoid
      ['A', 'C', 'G', 'T', 'A', 'C', 'G', 'T', 'A', 'C', 'G', 'T']
      ['A', 'C', 'T', 'T', 'A', 'C', 'G', 'T', 'A', 'C', 'G', 'T'] 12 0
      (defaultParams ℝ) =
    [(2, sigmoid (0.6 * (1.1 * 1.8 * (1 + 0.12))))] := by
  simp +decide [callVariantsChunk, sigmoid_pos, List.range_succ, chunkScore, cpgAdjusted,
    substitutionScore, countContextVariants, ctxStart, ctxEnd, defaultParams, isCpgSite,
    validBase, show List.range' 0 5 = [0, 1, 2, 3, 4] from rfl, List.countP_cons,
    List.countP_nil]

/-- C2 (counterexample): on reference `ACGTACGTACGT` with index 2 changed to
`T`, the scorer emits one entry at position 2, but its score is
`sigmoid (0.6 * (1.1 * 1.8 * 1.12))`, not the claimed
`sigmoid (0.6 * 0.28)`: index 2 of the reference holds `G` (not `C`), so the
substitution is a transversion, and it sits at a CpG site (`ref[1] = 'C'`). -/
theorem acgt_entry_score_differs :
    callVariantsChunk sigmoid
      ['A', 'C', 'G', 'T', 'A', 'C', 'G', 'T', 'A', 'C', 'G', 'T']
      ['A', 'C', 'T', 'T', 'A', 'C', 'G', 'T', 'A', 'C', 'G', 'T'] 12 0
      (defaultParams ℝ) =
    [(2, sigmoid (0.6 * (1.1 * 1.8 * (1 + 0.12))))] ∧
    sigmoid (0.6 * (1.1 * 1.8 * (1 + 0.12))) ≠ sigmoid (0.6 * 0.28) := by
  refine ⟨callVariants_acgt_eval, ?_⟩
  have h : (0.6 * 0.28 : ℝ) < 0.6 * (1.1 * 1.8 * (1 + 0.12)) := by norm_num
  exact (sigmoid_strictMono h).ne'

/-- C2 (amended): the same input yields exactly one entry, at position 2,
with score `sigmoid (0.6 * (1.1 * 1.8 * 1.12)) ≈ 0.7909` (transversion at a
CpG site with one context mismatch), and a sample identical to the reference
yields zero entries. -/
theorem acgt_entry_transversion_cpg :
    callVariantsChunk sigmoid
      ['A', 'C', 'G', 'T', 'A', 'C', 'G', 'T', 'A', 'C', 'G', 'T']
      ['A', 'C', 'T', 'T', 'A', 'C', 'G', 'T', 'A', 'C', 'G', 'T'] 12 0
      (defaultParams ℝ) =
    [(2, sigmoid (0.6 * (1.1 * 1.8 * (1 + 0.12))))] ∧
    callVariantsChunk sigmoid
      ['A', 'C', 'G', 'T', 'A', 'C', 'G', 'T', 'A', 'C', 'G', 'T']
      ['A', 'C', 'G', 'T', 'A', 'C', 'G', 'T', 'A', 'C', 'G', 'T'] 12 0
      (defaultParams ℝ) = [] :=
  ⟨callVariants_acgt_eval, callVariantsChunk_identical ..⟩

/-- C8: for every emitted entry, the radius-2 context count includes the
mismatch at the entry's own position, so it is at least 1, and for a
nonnegative `cluster_factor` the cluster multiplier is at least
`1 + cluster_factor`. -/
theorem context_count_includes_self {α : Type} [LinearOrderedField α] (sq : α → α)
    (ref sam : List Char) (len off : Nat) (p : VariantParams α)
    (hcf : 0 ≤ p.cluster_factor) (e : Nat × α)
    (he : e ∈ callVariantsChunk sq ref sam len off p) :
    ∃ i < len, e.1 = off + i ∧ 1 ≤ countContextVariants ref sam i len ∧
      1 + p.cluster_factor
        ≤ 1 + p.cluster_factor * (countContextVariants ref sam i len : α) := by
  obtain ⟨i, hi, heq, hne, -⟩ := callVariantsChunk_mem sq ref sam len off p e he
  have hstart : ctxStart i ≤ i := by rw [ctxStart]; split <;> omega
  have hend : i ≤ ctxEnd i len := by rw [ctxEnd]; split <;> omega
  have hmem : i ∈ List.range' (ctxStart i) (ctxEnd i len + 1 - ctxStart i) := by
    rw [List.mem_range'_1]
    omega
  have hcount : 1 ≤ countContextVariants ref sam i len := by
    rw [countContextVariants]
    have hpos : 0 < (List.range' (ctxStart i) (ctxEnd i len + 1 - ctxStart i)).countP
        (fun j => ref.getD j ' ' != sam.getD j ' ') :=
      List.countP_pos_iff.mpr ⟨i, hmem, by simpa using hne⟩
    omega
  refine ⟨i, hi, by rw [heq], hcount, ?_⟩
  have hc1 : (1 : α) ≤ (countContextVariants ref sam i len : α) := by
    exact_mod_cast hcount
  nlinarith

/-- Helper evaluation: one-base chunk `['A']` vs `['C']` over `ℚ` with the
identity squash: a transversion with one context mismatch, no CpG. -/
theorem callVariants_ac_eval :
    callVariantsChunk (id : ℚ → ℚ) ['A'] ['C'] 1 0 (defaultParams ℚ)
      = [(0, 462 / 625)] := by
  norm_num +decide [callVariantsChunk, List.range_succ, chunkScore, cpgAdjusted,
    substitutionScore, countContextVariants, ctxStart, ctxEnd, defaultParams, isCpgSite,
    validBase, show List.range' 0 1 = [0] from rfl, List.countP_cons, List.countP_nil,
    List.filterMap_cons, List.filterMap_nil]

/-- Witness for C8 at the one-base chunk `ref = ['A']`, `sam = ['C']`. -/
theorem context_count_includes_self_witness :
    0 ≤ (defaultParams ℚ).cluster_factor ∧
    (∃ i < 1, ((0, (462 / 625 : ℚ)) : Nat × ℚ).1 = 0 + i ∧
      1 ≤ countContextVariants ['A'] ['C'] i 1 ∧
      1 + (defaultParams ℚ).cluster_factor
        ≤ 1 + (defaultParams ℚ).cluster_factor
            * (countContextVariants ['A'] ['C'] i 1 : ℚ)) :=
  ⟨by norm_num [defaultParams],
    context_count_includes_self id ['A'] ['C'] 1 0 (defaultParams ℚ)
      (by norm_num [defaultParams]) (0, 462 / 625)
      (by rw [callVariants_ac_eval]; exact List.mem_singleton.mpr rfl)⟩

theorem chunkScore_pos {α : Type} [LinearOrderedField α] (ref sam : List Char)
    (i len : Nat) (p : VariantParams α) (htw : 0 < p.transition_weight)
    (htv : 0 < p.transversion_weight) (hcpg : 0 < p.cpg_multiplier)
    (hcf : 0 ≤ p.cluster_factor) : 0 < chunkScore ref sam i len p := by
  have hmul : (0 : α) < 1 + p.cluster_factor * (countContextVariants ref sam i len : α) := by
    have := mul_nonneg hcf (Nat.cast_nonneg (countContextVariants ref sam i len) : (0 : α) ≤ _)
    linarith
  rw [chunkScore, cpgAdjusted, substitutionScore]
  split_ifs <;> positivity

/-- C9: with all five scoring parameters strictly positive, every score the
variant scorer emits is strictly greater than `1/2`: the pre-squash score is
strictly positive and the logistic squash of a positive argument exceeds
`1/2`. -/
theorem emitted_scores_exceed_half (ref sam : List Char) (len off : Nat)
    (p : VariantParams ℝ) (htw : 0 < p.transition_weight)
    (htv : 0 < p.transversion_weight) (hcpg : 0 < p.cpg_multiplier)
    (hcf : 0 < p.cluster_factor) (hls : 0 < p.logistic_scale) (e : Nat × ℝ)
    (he : e ∈ callVariantsChunk sigmoid ref sam len off p) :
    1 / 2 < e.2 := by
  obtain ⟨i, hi, heq, -, -⟩ := callVariantsChunk_mem sigmoid ref sam len off p e he
  rw [heq]
  exact half_lt_sigmoid
    (mul_pos hls (chunkScore_pos ref sam i len p htw htv hcpg (le_of_lt hcf)))

/-- Helper evaluation: one-base chunk `['A']` vs `['G']` under the default
parameters: a transition with one context mismatch, no CpG. -/
theorem callVariants_ag_eval :
    callVariantsChunk sigmoid ['A'] ['G'] 1 0 (defaultParams ℝ)
      = [(0, sigmoid (0.6 * (0.28 * (1 + 0.12))))] := by
  simp +decide [callVariantsChunk, sigmoid_pos, List.range_succ, chunkScore, cpgAdjusted,
    substitutionScore, countContextVariants, ctxStart, ctxEnd, defaultParams, isCpgSite,
    validBase, show List.range' 0 1 = [0] from rfl, List.countP_cons, List.countP_nil]

/-- Witness for C9 at the one-base chunk `['A']` vs `['G']` with the default
(positive) parameters. -/
theorem emitted_scores_exceed_half_witness :
    1 / 2 < sigmoid (0.6 * (0.28 * (1 + 0.12))) := by
  have hmem : ((0, sigmoid (0.6 * (0.28 * (1 + 0.12)))) : Nat × ℝ)
      ∈ callVariantsChunk sigmoid ['A'] ['G'] 1 0 (defaultParams ℝ) := by
    rw [callVariants_ag_eval]
    exact List.mem_singleton.mpr rfl
  exact emitted_scores_exceed_half ['A'] ['G'] 1 0 (defaultParams ℝ)
    (by norm_num [defaultParams]) (by norm_num [defaultParams])
    (by norm_num [defaultParams]) (by norm_num [defaultParams])
    (by norm_num [defaultParams]) _ hmem

theorem gatherLoop_unfold {α : Type} [LinearOrderedField α] (sq : α → α)
    (p : VariantParams α) (chunkSize : Nat) (refFile indFile : List Char)
    (refPos indPos offset : Nat) (buf : List Char) (acc : List (Nat × α))
    (h0 : ¬ min chunkSize (refFile.length - refPos) = 0) :
    gatherLoop sq p chunkSize refFile indFile refPos indPos offset buf acc =
      (if min chunkSize (refFile.length - refPos) < chunkSize then
        (acc ++ callVariantsChunk sq
          ((refFile.drop refPos).take (min chunkSize (refFile.length - refPos)))
          ((indFile.drop indPos).take
              (min (min chunkSize (refFile.length - refPos)) (indFile.length - indPos))
            ++ buf.drop
              (min (min chunkSize (refFile.length - refPos)) (indFile.length - indPos)))
          (min chunkSize (refFile.length - refPos)) offset p,
         offset + min chunkSize (refFile.length - refPos))
      else gatherLoop sq p chunkSize refFile indFile
        (refPos + min chunkSize (refFile.length - refPos))
        (indPos + min (min chunkSize (refFile.length - refPos)) (indFile.length - indPos))
        (offset + min chunkSize (refFile.length - refPos))
        ((indFile.drop indPos).take
            (min (min chunkSize (refFile.length - refPos)) (indFile.length - indPos))
          ++ buf.drop
            (min (min chunkSize (refFile.length - refPos)) (indFile.length - indPos)))
        (acc ++ callVariantsChunk sq
          ((refFile.drop refPos).take (min chunkSize (refFile.length - refPos)))
          ((indFile.drop indPos).take
              (min (min chunkSize (refFile.length - refPos)) (indFile.length - indPos))
            ++ buf.drop
              (min (min chunkSize (refFile.length - refPos)) (indFile.length - indPos)))
          (min chunkSize (refFile.length - refPos)) offset p)) := by
  rw [gatherLoop, dif_neg h0]

theorem pairwise_filterMap_mono {β γ : Type} (f : β → Option γ) (R : γ → γ → Prop)
    (S : β → β → Prop) (l : List β) (hl : l.Pairwise S)
    (h : ∀ a b, S a b → ∀ x, f a = some x → ∀ y, f b = some y → R x y) :
    (l.filterMap f).Pairwise R := by
  induction hl with
  | nil => simp
  | @cons a l' ha _ ih =>
    rw [List.filterMap_cons]
    cases hfa : f a with
    | none => exact ih
    | some x =>
      refine List.Pairwise.cons ?_ ih
      intro y hy
      obtain ⟨b, hb, hfb⟩ := List.mem_filterMap.mp hy
      exact h a b (ha b hb) x hfa y hfb

theorem callVariantsChunk_pairwise {α : Type} [LinearOrderedField α] (sq : α → α)
    (ref sam : List Char) (len off : Nat) (p : VariantParams α) :
    (callVariantsChunk sq ref sam len off p).Pairwise (fun a b => a.1 < b.1) := by
  rw [callVariantsChunk]
  refine pairwise_filterMap_mono _ _ (· < ·) _ (List.pairwise_lt_range len) ?_
  intro a b hab x hx y hy
  have hxa : x.1 = off + a := by
    split_ifs at hx <;> first | exact Option.noConfusion hx | (cases hx; rfl)
  have hyb : y.1 = off + b := by
    split_ifs at hy <;> first | exact Option.noConfusion hy | (cases hy; rfl)
  omega

theorem callVariantsChunk_entry_bounds {α : Type} [LinearOrderedField α] (sq : α → α)
    (ref sam : List Char) (len off : Nat) (p : VariantParams α) (e : Nat × α)
    (he : e ∈ callVariantsChunk sq ref sam len off p) :
    off ≤ e.1 ∧ e.1 < off + len := by
  obtain ⟨i, hi, heq, -, -⟩ := callVariantsChunk_mem sq ref sam len off p e he
  rw [heq]
  simp
  omega

theorem gatherLoop_invariant {α : Type} [LinearOrderedField α] (sq : α → α)
    (p : VariantParams α) (chunkSize : Nat) (refFile indFile : List Char) :
    ∀ (fuel refPos indPos offset : Nat) (buf : List Char) (acc : List (Nat × α)),
      refFile.length - refPos ≤ fuel →
      acc.Pairwise (fun a b => a.1 < b.1) →
      (∀ e ∈ acc, e.1 < offset) →
      (gatherLoop sq p chunkSize refFile indFile refPos indPos offset buf acc).1.Pairwise
          (fun a b => a.1 < b.1) ∧
      ∀ e ∈ (gatherLoop sq p chunkSize refFile indFile refPos indPos offset buf acc).1,
        e.1 < (gatherLoop sq p chunkSize refFile indFile refPos indPos offset buf acc).2 := by
  intro fuel
  induction fuel with
  | zero =>
    intro refPos indPos offset buf acc h0 hpw hbd
    rw [gatherLoop, dif_pos (by omega)]
    exact ⟨hpw, hbd⟩
  | succ fuel ih =>
    intro refPos indPos offset buf acc hf hpw hbd
    by_cases h0 : min chunkSize (refFile.length - refPos) = 0
    · rw [gatherLoop, dif_pos h0]
      exact ⟨hpw, hbd⟩
    · rw [gatherLoop_unfold sq p chunkSize refFile indFile refPos indPos offset buf acc h0]
      have hpw2 : (acc ++ callVariantsChunk sq
          ((refFile.drop refPos).take (min chunkSize (refFile.length - refPos)))
          ((indFile.drop indPos).take
              (min (min chunkSize (refFile.length - refPos)) (indFile.length - indPos))
            ++ buf.drop
              (min (min chunkSize (refFile.length - refPos)) (indFile.length - indPos)))
          (min chunkSize (refFile.length - refPos)) offset p).Pairwise
            (fun a b => a.1 < b.1) := by
        rw [List.pairwise_append]
        refine ⟨hpw, callVariantsChunk_pairwise .., ?_⟩
        intro a ha b hb
        have hba := (callVariantsChunk_entry_bounds sq _ _ _ _ p b hb).1
        have := hbd a ha
        omega
      have hbd2 : ∀ e ∈ acc ++ callVariantsChunk sq
          ((refFile.drop refPos).take (min chunkSize (refFile.length - refPos)))
          ((indFile.drop indPos).take
              (min (min chunkSize (refFile.length - refPos)) (indFile.length - indPos))
            ++ buf.drop
              (min (min chunkSize (refFile.length - refPos)) (indFile.length - indPos)))
          (min chunkSize (refFile.length - refPos)) offset p,
          e.1 < offset + min chunkSize (refFile.length - refPos) := by
        intro e he
        rcases List.mem_append.mp he with h | h
        · have := hbd e h
          omega
        · exact (callVariantsChunk_entry_bounds sq _ _ _ _ p e h).2
      split_ifs with hlt
      · exact ⟨hpw2, hbd2⟩
      · exact ih (refPos + min chunkSize (refFile.length - refPos))
          (indPos + min (min chunkSize (refFile.length - refPos)) (indFile.length - indPos))
          (offset + min chunkSize (refFile.length - refPos)) _ _ (by omega) hpw2 hbd2

/-- C6: for every individual, over any streamed reference/individual file
pair, the positions stored in the accumulated sparse variant set are in
strictly ascending insertion order; in particular no position occurs twice. -/
theorem variant_positions_strictly_ascending {α : Type} [LinearOrderedField α]
    (sq : α → α) (p : VariantParams α) (chunkSize : Nat) (refFile indFile : List Char) :
    (gatherVariantsSparse sq p chunkSize refFile indFile).1.Pairwise
        (fun a b => a.1 < b.1) ∧
    ((gatherVariantsSparse sq p chunkSize refFile indFile).1.map Prod.fst).Nodup := by
  have h := gatherLoop_invariant sq p chunkSize refFile indFile
    (refFile.length) 0 0 0 (initialBuf chunkSize) [] (by omega)
    List.Pairwise.nil (by simp)
  exact ⟨h.1, h.1.map Prod.fst (fun a b hab => Nat.ne_of_lt hab)⟩

theorem gatherLoop_snd_aux {α : Type} [LinearOrderedField α] (sq : α → α)
    (p : VariantParams α) (chunkSize : Nat) (refFile indFile : List Char)
    (hcs : 0 < chunkSize) :
    ∀ (fuel refPos indPos offset : Nat) (buf : List Char) (acc : List (Nat × α)),
      refFile.length - refPos ≤ fuel →
      (gatherLoop sq p chunkSize refFile indFile refPos indPos offset buf acc).2
        = offset + (refFile.length - refPos) := by
  intro fuel
  induction fuel with
  | zero =>
    intro refPos indPos offset buf acc h0
    rw [gatherLoop, dif_pos (by omega)]
    omega
  | succ fuel ih =>
    intro refPos indPos offset buf acc hf
    by_cases h0 : min chunkSize (refFile.length - refPos) = 0
    · rw [gatherLoop, dif_pos h0]
      simp only []
      omega
    · rw [gatherLoop_unfold sq p chunkSize refFile indFile refPos indPos offset buf acc h0]
      split_ifs with hlt
      · simp only []
        omega
      · rw [ih (refPos + min chunkSize (refFile.length - refPos))
          (indPos + min (min chunkSize (refFile.length - refPos)) (indFile.length - indPos))
          (offset + min chunkSize (refFile.length - refPos)) _ _ (by omega)]
        omega

/-- C7 (amended): the dimension `d` handed to the partial PCA is `total_len`,
the total number of reference bytes streamed, which equals the reference
file's full byte count — including a trailing newline if present.  (The
helper `get_file_length`, which would exclude the newline, is not called by
the pipeline.) -/
theorem streamed_length_eq_file_length {α : Type} [LinearOrderedField α] (sq : α → α)
    (p : VariantParams α) (chunkSize : Nat) (refFile indFile : List Char)
    (hcs : 0 < chunkSize) :
    (gatherVariantsSparse sq p chunkSize refFile indFile).2 = refFile.length := by
  rw [gatherVariantsSparse,
    gatherLoop_snd_aux sq p chunkSize refFile indFile hcs refFile.length 0 0 0
      (initialBuf chunkSize) [] (by omega)]
  omega

/-- Witness for C7 (amended) at the two-byte reference `"A\n"`. -/
theorem streamed_length_eq_file_length_witness :
    0 < 1000000 ∧
    (gatherVariantsSparse (id : ℚ → ℚ) (defaultParams ℚ) 1000000 ['A', '\n']
      ['A', '\n']).2 = (['A', '\n'] : List Char).length :=
  ⟨by norm_num,
    streamed_length_eq_file_length id (defaultParams ℚ) 1000000 ['A', '\n'] ['A', '\n']
      (by norm_num)⟩

/-- C7 (counterexample): for the reference `"A\n"` (two bytes ending in a
newline) the pipeline passes `d = 2` — the full byte count — to the partial
PCA, not `2 - 1 = 1`; `get_file_length` would return `1` but is unused. -/
theorem streamed_length_includes_newline :
    (gatherVariantsSparse (id : ℚ → ℚ) (defaultParams ℚ) 1000000 ['A', '\n']
      ['A', '\n']).2 = 2 ∧
    getFileLength ['A', '\n'] = 1 ∧
    (2 : Nat) ≠ 2 - 1 := by
  refine ⟨?_, by decide, by norm_num⟩
  rw [gatherVariantsSparse,
    gatherLoop_snd_aux (id : ℚ → ℚ) (defaultParams ℚ) 1000000 ['A', '\n'] ['A', '\n']
      (by norm_num) 2 0 0 0 (initialBuf 1000000) [] (by norm_num)]
  rfl

/-- Helper evaluation for C1: reference `"AAAA"`, individual `"ACA"` (one
byte short), chunk size 2.  Chunk 1 compares `AA`/`AC` (entry at 1); chunk 2
reads only one fresh byte `A`, so the buffer is `A` followed by the stale
`C` left over from chunk 1, and the comparison — run over the full reference
read length 2 — emits an entry at position 3 from the stale byte. -/
theorem gather_short_individual_eval :
    (gatherVariantsSparse sigmoid (defaultParams ℝ) 2 ['A', 'A', 'A', 'A']
      ['A', 'C', 'A']).1
      = [(1, sigmoid (0.6 * (1.1 * (1 + 0.12)))),
         (3, sigmoid (0.6 * (1.1 * (1 + 0.12))))] := by
  rw [gatherVariantsSparse, gatherLoop]
  simp +decide [callVariantsChunk, sigmoid_pos, List.range_succ, chunkScore, cpgAdjusted,
    substitutionScore, countContextVariants, ctxStart, ctxEnd, defaultParams, isCpgSite,
    validBase, initialBuf, List.countP_cons, List.countP_nil, gatherLoop,
    show List.range' 0 2 = [0, 1] from rfl]

/-- C1 (counterexample): with reference `"AAAA"` and the three-byte
individual `"ACA"` (chunk size 2), the second chunk's read returns 1 byte
while the reference read returns 2, yet the scorer is invoked with length 2:
it emits an entry at position 3 — at/beyond the individual's supplied byte
count 3 — produced from a stale buffer byte the read did not supply. -/
theorem stale_bytes_emit_entries :
    ((gatherVariantsSparse sigmoid (defaultParams ℝ) 2 ['A', 'A', 'A', 'A']
      ['A', 'C', 'A']).1).map Prod.fst = [1, 3] ∧
    (['A', 'C', 'A'] : List Char).length = 3 ∧
    (3 : Nat) ∈ ((gatherVariantsSparse sigmoid (defaultParams ℝ) 2 ['A', 'A', 'A', 'A']
      ['A', 'C', 'A']).1).map Prod.fst := by
  rw [gather_short_individual_eval]
  refine ⟨rfl, rfl, by simp⟩

/-- C1 (amended): the comparison for each chunk runs over the reference read
length `nref`, not the individual's (possibly shorter) read length: every
emitted position is strictly below `total_len`, the number of reference
bytes streamed, regardless of the individual file's length — and positions
at or beyond the individual's supplied bytes can carry entries, compared
against stale buffer contents. -/
theorem truncation_uses_reference_length {α : Type} [LinearOrderedField α]
    (sq : α → α) (p : VariantParams α) (chunkSize : Nat) (refFile indFile : List Char)
    (e : Nat × α) (he : e ∈ (gatherVariantsSparse sq p chunkSize refFile indFile).1) :
    e.1 < (gatherVariantsSparse sq p chunkSize refFile indFile).2 := by
  have h := gatherLoop_invariant sq p chunkSize refFile indFile
    refFile.length 0 0 0 (initialBuf chunkSize) [] (by omega)
    List.Pairwise.nil (by simp)
  exact h.2 e he

/-- Witness for C1 (amended): the stale-byte entry at position 3 of the
concrete run lies below the streamed reference length 4. -/
theorem truncation_uses_reference_length_witness :
    ((3, sigmoid (0.6 * (1.1 * (1 + 0.12)))) : Nat × ℝ).1
      < (gatherVariantsSparse sigmoid (defaultParams ℝ) 2 ['A', 'A', 'A', 'A']
          ['A', 'C', 'A']).2 :=
  truncation_uses_reference_length sigmoid (defaultParams ℝ) 2 ['A', 'A', 'A', 'A']
    ['A', 'C', 'A'] (3, sigmoid (0.6 * (1.1 * (1 + 0.12))))
    (by rw [gather_short_individual_eval]
        exact List.mem_cons_of_mem _ (List.mem_singleton.mpr rfl))

end PopPCA
